import Mathlib

/-!
Verification of the ECDSA engine of `ecdsa_fun` (src/ecdsa_fun/src/lib.rs)
and of the FROST threshold-backup codec exercised by
src/schnorr_fun/tests/frost_backup.rs.

The group-arithmetic substrate (`secp256kfun`) is external to the sources
under inspection.  Following the specification (§1, §2, §6) it is a
prime-order cyclic group with scalars modulo the group order `q`.  We model
it through discrete logarithms: every point of a cyclic group of order `q`
is `k·G` for a unique scalar `k`, so a point is represented by its exponent
`k : ZMod q`, point addition is scalar addition of exponents, and scalar
multiplication is multiplication of exponents.  The x-coordinate of a
short-Weierstrass point satisfies `x(P) = x(-P)` and determines `P` up to
sign, so the class `{P, -P}` is represented by the smaller of the two
exponents, already reduced modulo the group order.  The engine code itself
(construction, policy flag, `sign`, `verify`) is translated line by line
from src/ecdsa_fun/src/lib.rs.
-/

/-- Modelled from the spec: a 32-byte message hash (`[u8; 32]`), represented
by its big-endian integer value, which lies below `2 ^ 256`. -/
abbrev Bytes32 : Type := Fin (2 ^ 256)

/-- Modelled from the spec: the group generator `G`; in the discrete-log
model its exponent is `1`. -/
def GPoint (q : ℕ) : ZMod q := 1

/-- Modelled from the spec: scalar multiplication `k * P` of the substrate,
acting on exponents in the discrete-log model. -/
def pointMul {q : ℕ} (k P : ZMod q) : ZMod q := k * P

/-- Modelled from the spec: point addition of the substrate, acting on
exponents in the discrete-log model. -/
def pointAdd {q : ℕ} (P Q : ZMod q) : ZMod q := P + Q

/-- Modelled from the spec: `Scalar::from_bytes_mod_order` interprets the 32
bytes as a big-endian integer and reduces it modulo the group order. -/
def fromBytesModOrder (q : ℕ) (h : Bytes32) : ZMod q := (h.val : ZMod q)

/-- Modelled from the spec (§3): `Scalar::is_high` — a scalar is high when it
is greater than half the group order, i.e. `q < 2 * s`. -/
def isHigh {q : ℕ} [NeZero q] (s : ZMod q) : Bool := decide (q < 2 * s.val)

/-- Modelled from the spec: the x-coordinate of a point, reduced modulo the
group order (`R.to_xonly().into_bytes()` fed to `from_bytes_mod_order`).  In
the discrete-log model the class `{P, -P}` is represented by its smaller
exponent. -/
def xonlyScalar {q : ℕ} [NeZero q] (P : ZMod q) : ZMod q :=
  ((min P.val (q - P.val) : ℕ) : ZMod q)

/-- Modelled from the spec: `Point::x_eq_scalar` — whether the x-coordinate
of the point, reduced modulo the group order, equals the given scalar. -/
def x_eq_scalar {q : ℕ} [NeZero q] (P rx : ZMod q) : Bool :=
  decide (xonlyScalar P = rx)

/-- Modelled from the spec (§2, §6): a deterministic nonce generator — a pure
function from (bound protocol tags, secret key, public message bytes) to a
scalar nonce, carrying the list of domain-separation tags bound so far. -/
structure NonceGen (q : ℕ) where
  tags : List String
  base : List String → ZMod q → Bytes32 → ZMod q

/-- Modelled from the spec: `NonceGen::add_protocol_tag` binds one more
domain-separation tag into the generator. -/
def NonceGen.addProtocolTag {q : ℕ} (ng : NonceGen q) (t : String) : NonceGen q :=
  { tags := ng.tags ++ [t], base := ng.base }

/-- Modelled from the spec: deriving a nonce from the secret key and the
public message bytes under the generator's bound tags (the `derive_nonce!`
invocation in `ECDSA::sign`). -/
def NonceGen.derive {q : ℕ} (ng : NonceGen q) (sk : ZMod q) (h : Bytes32) : ZMod q :=
  ng.base ng.tags sk h

/-- An instance of the ECDSA signature scheme
(src/ecdsa_fun/src/lib.rs, `struct ECDSA<NG>`): a nonce generator and the
`enforce_low_s` policy flag. -/
structure ECDSA (NG : Type) where
  nonce_gen : NG
  enforce_low_s : Bool

/-- Source `ECDSA::verify_only` (src/ecdsa_fun/src/lib.rs lines 37-43): an
instance that cannot sign (`nonce_gen = ()`). -/
def ECDSA.verify_only : ECDSA Unit :=
  { nonce_gen := (), enforce_low_s := false }

/-- Source `ECDSA::enforce_low_s` (lines 49-54), named `enforceLowS` here
because the field keeps the source name: same nonce generator, policy flag
set. -/
def ECDSA.enforceLowS {NG : Type} (e : ECDSA NG) : ECDSA NG :=
  { nonce_gen := e.nonce_gen, enforce_low_s := true }

/-- Source `ECDSA::new` (lines 95-100): stores the nonce generator with the
protocol tag "ECDSA" added, and does not enforce low s. -/
def ECDSA.new {q : ℕ} (nonce_gen : NonceGen q) : ECDSA (NonceGen q) :=
  { nonce_gen := nonce_gen.addProtocolTag "ECDSA", enforce_low_s := false }

/-- The signature pair `(R_x, s)` (spec §3; `signature.rs` is not among the
sources, modelled from the spec as a plain ordered pair of scalars). -/
structure Signature (q : ℕ) where
  R_x : ZMod q
  s : ZMod q
  deriving DecidableEq

/-- Modelled from the spec: `Scalar::invert` of the substrate, the
multiplicative inverse modulo the (prime) group order, computed by Fermat
exponentiation so that it is kernel-executable; for a prime order above two
it coincides with the field inverse (`scalarInvert_eq_inv`). -/
def scalarInvert {q : ℕ} (s : ZMod q) : ZMod q := s ^ (q - 2)

/-- The implied nonce point computed by `verify`:
`g!((s_inv * m) * G + (s_inv * R_x) * verification_key)` (line 74). -/
def impliedPoint {q : ℕ} (vk m rx s : ZMod q) : ZMod q :=
  pointAdd (pointMul (scalarInvert s * m) (GPoint q)) (pointMul (scalarInvert s * rx) vk)

/-- Source `ECDSA::verify` (src/ecdsa_fun/src/lib.rs lines 59-77): reject a
high `s` when the policy flag is set, reduce the message, compute the implied
nonce point, reject the identity, otherwise compare x-coordinates. -/
def ECDSA.verify {NG : Type} {q : ℕ} [NeZero q] (e : ECDSA NG) (vk : ZMod q)
    (msg : Bytes32) (sig : Signature q) : Bool :=
  if isHigh sig.s && e.enforce_low_s then false
  else if impliedPoint vk (fromBytesModOrder q msg) sig.R_x sig.s = 0 then false
  else x_eq_scalar (impliedPoint vk (fromBytesModOrder q msg) sig.R_x sig.s) sig.R_x

/-- The nonce `r` derived in `ECDSA::sign` (lines 129-133): the stored nonce
generator applied to the secret key and the message-hash bytes. -/
def ECDSA.nonce {q : ℕ} (e : ECDSA (NonceGen q)) (x : ZMod q) (h : Bytes32) : ZMod q :=
  e.nonce_gen.derive x h

/-- The scalar `R_x` computed in `ECDSA::sign` (lines 134-140): the
x-coordinate of `R = r·G`, reduced modulo the group order. -/
def ECDSA.signRx {q : ℕ} [NeZero q] (e : ECDSA (NonceGen q)) (x : ZMod q)
    (h : Bytes32) : ZMod q :=
  xonlyScalar (pointMul (e.nonce x h) (GPoint q))

/-- The scalar `s` computed in `ECDSA::sign` before canonicalization
(line 146): `r⁻¹ * (m + R_x * x)`. -/
def ECDSA.signS {q : ℕ} [NeZero q] (e : ECDSA (NonceGen q)) (x : ZMod q)
    (h : Bytes32) : ZMod q :=
  scalarInvert (e.nonce x h) * (fromBytesModOrder q h + e.signRx x h * x)

/-- Source `s.conditional_negate(s.is_high())` (line 154): negate the scalar
exactly when it is high. -/
def condNegHigh {q : ℕ} [NeZero q] (s : ZMod q) : ZMod q :=
  if isHigh s then -s else s

/-- Source `ECDSA::sign` (src/ecdsa_fun/src/lib.rs lines 126-160).  The two
`.expect("computationally unreachable")` aborts (a zero `R_x`, then a zero
`s`) are modelled by returning `none`; otherwise the canonicalized signature
is produced. -/
def ECDSA.sign {q : ℕ} [NeZero q] (e : ECDSA (NonceGen q)) (x : ZMod q)
    (h : Bytes32) : Option (Signature q) :=
  if e.signRx x h = 0 then none
  else if e.signS x h = 0 then none
  else some { R_x := e.signRx x h, s := condNegHigh (e.signS x h) }

/-!
FROST threshold-backup codec.  The implementation
(`schnorr_fun::frost_backup`) is not among the sources — only its tests are —
so the whole codec is modelled from the spec (§4.2, §4.3): the transcribable
string is a list of numeric fields `[version, threshold, identifier,
discriminant, index payload, share, checksum]`, with the checksum covering
all preceding fields and the share-index variant chosen by an explicit
discriminant.
-/

/-- Modelled from the spec (§3) and the test file's
`frost_backup::BackupShareIndex`: a share index is either a small sequential
integer or a full scalar. -/
inductive BackupShareIndex (q : ℕ) where
  | SmallIndex (i : ℕ)
  | Scalar (s : ZMod q)
  deriving DecidableEq

/-- Modelled from the spec (§4.2): `polynomial_identifier` deterministically
hashes the ordered sequence of public polynomial coefficients into a
fixed-size tag; the collision-resistant hash is idealized as an injective
encoding of the ordered exponent sequence. -/
def polynomial_identifier {q : ℕ} (poly : List (ZMod q)) : ℕ :=
  (poly.map ZMod.val).foldr (fun a acc => Nat.pair a acc + 1) 0

/-- Modelled from the spec (§4.3): the checksum covering all preceding
fields of the encoded backup. -/
def backupChecksum (fields : List ℕ) : ℕ := fields.sum

/-- Modelled from the spec (§4.3): validity of a share index for encoding —
a small index must fit the encoding's field width; a scalar index is always
encodable. -/
def indexOk {q : ℕ} : BackupShareIndex q → Bool
  | .SmallIndex i => decide (i < 2 ^ 16)
  | .Scalar _ => true

/-- Modelled from the spec (§4.3): the checksummed fields of a backup —
version marker `1`, threshold, polynomial identifier, share-index
discriminant (`0` small, `1` scalar) and payload, and the secret share. -/
def backupFields {q : ℕ} [NeZero q] (t : ℕ) (poly : List (ZMod q))
    (share : ZMod q) : BackupShareIndex q → List ℕ
  | .SmallIndex i => [1, t, polynomial_identifier poly, 0, i, share.val]
  | .Scalar s => [1, t, polynomial_identifier poly, 1, s.val, share.val]

/-- Modelled from the spec (§4.3): `encode_backup` — fail on an
out-of-range threshold or share index, otherwise emit the fields followed by
their checksum. -/
def encode_backup {q : ℕ} [NeZero q] (t : ℕ) (poly : List (ZMod q))
    (share : ZMod q) (idx : BackupShareIndex q) : Option (List ℕ) :=
  if t = 0 ∨ 2 ^ 16 ≤ t then none
  else if indexOk idx = false then none
  else some (backupFields t poly share idx ++ [backupChecksum (backupFields t poly share idx)])

/-- Modelled from the spec (§4.3): `decode_backup` — checksum first, then
version marker, then field ranges, then the share-index discriminant. -/
def decode_backup (q : ℕ) [NeZero q] (str : List ℕ) :
    Option (ℕ × ℕ × ZMod q × BackupShareIndex q) :=
  match str with
  | [v, t, ident, d, payload, sh, c] =>
    if c ≠ backupChecksum [v, t, ident, d, payload, sh] then none
    else if v ≠ 1 then none
    else if t = 0 ∨ 2 ^ 16 ≤ t then none
    else if q ≤ sh then none
    else if d = 0 then
      if 2 ^ 16 ≤ payload then none
      else some (t, ident, (sh : ZMod q), .SmallIndex payload)
    else if d = 1 then
      if q ≤ payload then none
      else some (t, ident, (sh : ZMod q), .Scalar (payload : ZMod q))
    else none
  | _ => none

/-- The secp256k1 group order, used to instantiate the codec at the scalar
field the tests use. -/
def secpOrder : ℕ :=
  0xFFFFFFFFFFFFFFFFFFFFFFFFFFFFFFFEBAAEDCE6AF48A03BBFD25E8CD0364141

instance : NeZero secpOrder := ⟨by decide⟩

instance : NeZero (13 : ℕ) := ⟨by decide⟩

instance : Fact (Nat.Prime 13) := ⟨by norm_num⟩

/-!  Concrete objects used to evaluate the embedded engine on small inputs
(a prime-order group of order 13 stands in for the secp256k1-class group,
which the spec treats as an external parameter of the engine). -/

/-- A nonce generator whose derivation is the constant 2. -/
def ngConst : NonceGen 13 := ⟨[], fun _ _ _ => 2⟩

/-- A nonce generator whose derivation is the constant 1. -/
def ngOne : NonceGen 13 := ⟨[], fun _ _ _ => 1⟩

/-- A nonce generator whose derivation counts the bound tags, so binding one
more tag always changes the derived nonce. -/
def ngTagSensitive : NonceGen 13 := ⟨[], fun ts _ _ => (ts.length : ZMod 13)⟩

/-- A signing-capable engine over the order-13 group. -/
def e13 : ECDSA (NonceGen 13) := ECDSA.new ngConst

/-- A signing-capable engine whose nonce derivation can hit the zero-`s`
abort. -/
def eAbort : ECDSA (NonceGen 13) := ECDSA.new ngOne

/-- A verify-only engine without low-s enforcement. -/
def eVer : ECDSA Unit := ECDSA.verify_only

/-- A verify-only engine with low-s enforcement. -/
def eVerEnf : ECDSA Unit := ECDSA.verify_only.enforceLowS

/-- Concrete message hash with value 0. -/
def bw0 : Bytes32 := ⟨0, by decide⟩

/-- Concrete message hash with value 1. -/
def bw1 : Bytes32 := ⟨1, by decide⟩

/-- Concrete message hash with value 5. -/
def bw5 : Bytes32 := ⟨5, by decide⟩

/-- Concrete message hash with value 6. -/
def bw6 : Bytes32 := ⟨6, by decide⟩

/-- Concrete message hash with value 13, congruent to 0 modulo 13. -/
def bw13 : Bytes32 := ⟨13, by decide⟩

/-!  Helper lemmas shared by the claim theorems. -/

lemma val_xonlyScalar {q : ℕ} [NeZero q] (P : ZMod q) :
    (xonlyScalar P).val = min P.val (q - P.val) := by
  have hlt : min P.val (q - P.val) < q :=
    lt_of_le_of_lt (Nat.min_le_left _ _) (ZMod.val_lt P)
  rw [xonlyScalar, ZMod.val_natCast, Nat.mod_eq_of_lt hlt]

lemma xonlyScalar_zero {q : ℕ} [NeZero q] : xonlyScalar (0 : ZMod q) = 0 := by
  simp [xonlyScalar, ZMod.val_zero]

lemma xonlyScalar_neg {q : ℕ} [NeZero q] (P : ZMod q) :
    xonlyScalar (-P) = xonlyScalar P := by
  by_cases hP : P = 0
  · simp [hP]
  · have hv : P.val ≤ q := le_of_lt (ZMod.val_lt P)
    unfold xonlyScalar
    rw [ZMod.neg_val, if_neg hP, Nat.sub_sub_self hv, Nat.min_comm]

lemma xonlyScalar_ne_zero {q : ℕ} [NeZero q] {P : ZMod q}
    (h : xonlyScalar P ≠ 0) : P ≠ 0 := by
  intro h0
  exact h (by rw [h0, xonlyScalar_zero])

lemma isHigh_condNegHigh {q : ℕ} [NeZero q] {s : ZMod q} (hs : s ≠ 0) :
    isHigh (condNegHigh s) = false := by
  have hvlt : s.val < q := ZMod.val_lt s
  unfold condNegHigh
  by_cases h : isHigh s
  · have hq : q < 2 * s.val := by
      simpa [isHigh] using h
    rw [if_pos h]
    simp only [isHigh, ZMod.neg_val, if_neg hs, decide_eq_false_iff_not]
    omega
  · rw [if_neg h]
    simpa using h

lemma condNegHigh_ne_zero {q : ℕ} [NeZero q] {s : ZMod q} (hs : s ≠ 0) :
    condNegHigh s ≠ 0 := by
  unfold condNegHigh
  by_cases h : isHigh s
  · rw [if_pos h]
    exact neg_ne_zero.mpr hs
  · rw [if_neg h]
    exact hs

lemma isHigh_neg_of_low {q : ℕ} [NeZero q] (hodd : Odd q) {s : ZMod q}
    (hs : s ≠ 0) (hl : isHigh s = false) : isHigh (-s) = true := by
  have hvlt : s.val < q := ZMod.val_lt s
  have hvpos : 0 < s.val := ZMod.val_pos.mpr hs
  have hle : ¬ q < 2 * s.val := by
    simpa [isHigh] using hl
  obtain ⟨k, hk⟩ := hodd
  simp only [isHigh, ZMod.neg_val, if_neg hs, decide_eq_true_eq]
  omega

lemma sign_eq_some_iff {q : ℕ} [NeZero q] (e : ECDSA (NonceGen q)) (x : ZMod q)
    (h : Bytes32) (sig : Signature q) :
    e.sign x h = some sig ↔
      e.signRx x h ≠ 0 ∧ e.signS x h ≠ 0 ∧
        sig = { R_x := e.signRx x h, s := condNegHigh (e.signS x h) } := by
  unfold ECDSA.sign
  by_cases h1 : e.signRx x h = 0
  · simp [h1]
  · by_cases h2 : e.signS x h = 0
    · simp [h1, h2]
    · simp [h1, h2, eq_comm]

lemma sign_eq_none_iff {q : ℕ} [NeZero q] (e : ECDSA (NonceGen q)) (x : ZMod q)
    (h : Bytes32) :
    e.sign x h = none ↔ e.signRx x h = 0 ∨ e.signS x h = 0 := by
  unfold ECDSA.sign
  by_cases h1 : e.signRx x h = 0
  · simp [h1]
  · by_cases h2 : e.signS x h = 0 <;> simp [h1, h2]

lemma scalarInvert_eq_inv {q : ℕ} [Fact (Nat.Prime q)] (hq : 2 < q)
    (s : ZMod q) : scalarInvert s = s⁻¹ := by
  by_cases hs : s = 0
  · subst hs
    rw [scalarInvert, zero_pow (by omega : q - 2 ≠ 0), inv_zero]
  · have hstep : s ^ (q - 2) * s = 1 := by
      rw [← pow_succ, (by omega : q - 2 + 1 = q - 1)]
      exact ZMod.pow_card_sub_one_eq_one hs
    calc scalarInvert s = s ^ (q - 2) * (s * s⁻¹) := by
          rw [mul_inv_cancel₀ hs, mul_one, scalarInvert]
      _ = s ^ (q - 2) * s * s⁻¹ := by ring
      _ = s⁻¹ := by rw [hstep, one_mul]

lemma impliedPoint_neg_s {q : ℕ} [NeZero q] [Fact (Nat.Prime q)] (hq : 2 < q)
    (vk m rx s : ZMod q) :
    impliedPoint vk m rx (-s) = -(impliedPoint vk m rx s) := by
  unfold impliedPoint pointAdd pointMul GPoint
  rw [scalarInvert_eq_inv hq, scalarInvert_eq_inv hq, inv_neg]
  ring

lemma verify_neg_s {q : ℕ} [NeZero q] [Fact (Nat.Prime q)] (hq : 2 < q) {NG : Type}
    (e : ECDSA NG) (he : e.enforce_low_s = false) (vk : ZMod q) (h : Bytes32)
    (rx s : ZMod q) :
    e.verify vk h { R_x := rx, s := -s } = e.verify vk h { R_x := rx, s := s } := by
  unfold ECDSA.verify
  simp only [he, Bool.and_false, Bool.false_eq_true, if_false]
  by_cases h0 : impliedPoint vk (fromBytesModOrder q h) rx s = 0
  · simp [impliedPoint_neg_s hq, h0]
  · simp [impliedPoint_neg_s hq, h0, x_eq_scalar, xonlyScalar_neg]

/-- C1: for every secret key `x` and 32-byte message hash `h`, whenever
`sign` produces a signature, verifying it against the public key `x·G`
succeeds — under the same ECDSA instance or any other instance, since the
produced `s` is always low. -/
theorem ecdsa_sign_verify_roundtrip {q : ℕ} [NeZero q] [Fact (Nat.Prime q)]
    (hq : 2 < q) {NG : Type} (e : ECDSA (NonceGen q)) (e2 : ECDSA NG)
    (x : ZMod q) (h : Bytes32) (sig : Signature q)
    (hsig : e.sign x h = some sig) :
    e2.verify (pointMul x (GPoint q)) h sig = true := by
  obtain ⟨hRx, hS, hsigeq⟩ := (sign_eq_some_iff e x h sig).mp hsig
  subst hsigeq
  have hRxval : e.signRx x h = xonlyScalar (e.nonce x h) := by
    unfold ECDSA.signRx pointMul GPoint
    rw [mul_one]
  have hr : e.nonce x h ≠ 0 := by
    intro h0
    apply hRx
    rw [hRxval, h0, xonlyScalar_zero]
  have hkey : fromBytesModOrder q h + e.signRx x h * x = e.nonce x h * e.signS x h := by
    unfold ECDSA.signS
    rw [scalarInvert_eq_inv hq, ← mul_assoc, mul_inv_cancel₀ hr, one_mul]
  have hbase : impliedPoint (pointMul x (GPoint q)) (fromBytesModOrder q h)
      (e.signRx x h) (e.signS x h) = e.nonce x h := by
    unfold impliedPoint pointAdd pointMul GPoint
    rw [scalarInvert_eq_inv hq]
    have hring : (e.signS x h)⁻¹ * fromBytesModOrder q h * 1 +
        (e.signS x h)⁻¹ * e.signRx x h * (x * 1) =
        (e.signS x h)⁻¹ * (fromBytesModOrder q h + e.signRx x h * x) := by ring
    rw [hring, hkey, mul_comm (e.nonce x h), ← mul_assoc,
      inv_mul_cancel₀ hS, one_mul]
  have himp : impliedPoint (pointMul x (GPoint q)) (fromBytesModOrder q h)
      (e.signRx x h) (condNegHigh (e.signS x h)) = e.nonce x h ∨
      impliedPoint (pointMul x (GPoint q)) (fromBytesModOrder q h)
        (e.signRx x h) (condNegHigh (e.signS x h)) = -(e.nonce x h) := by
    unfold condNegHigh
    by_cases hhigh : isHigh (e.signS x h)
    · right
      rw [if_pos hhigh, impliedPoint_neg_s hq, hbase]
    · left
      rw [if_neg hhigh, hbase]
  unfold ECDSA.verify
  simp only [isHigh_condNegHigh hS, Bool.false_and, Bool.false_eq_true, if_false]
  rcases himp with himp | himp <;> rw [himp] <;>
    simp [hr, x_eq_scalar, xonlyScalar_neg, hRxval]

/-- C1 witness: on the order-13 group with a constant nonce generator,
signing the hash 5 under the key 3 produces the signature (2, 1), which any
verifier (here a low-s-enforcing one) accepts for the public key 3·G. -/
theorem ecdsa_sign_verify_roundtrip_witness :
    e13.sign 3 bw5 = some { R_x := 2, s := 1 } ∧
    eVerEnf.verify (pointMul 3 (GPoint 13)) bw5 { R_x := 2, s := 1 } = true :=
  ⟨by decide,
    ecdsa_sign_verify_roundtrip (by decide) e13 eVerEnf 3 bw5
      { R_x := 2, s := 1 } (by decide)⟩

/-- C3: every signature returned by `sign` has a low `s` component — the
conditional negation after computing `s` is unconditional in the policy
flag, so this holds for every engine instance. -/
theorem sign_produces_low_s {q : ℕ} [NeZero q] (e : ECDSA (NonceGen q))
    (x : ZMod q) (h : Bytes32) (sig : Signature q)
    (hsig : e.sign x h = some sig) : isHigh sig.s = false := by
  obtain ⟨_, hS, hsigeq⟩ := (sign_eq_some_iff e x h sig).mp hsig
  subst hsigeq
  exact isHigh_condNegHigh hS

/-- C3 witness: signing the hash 6 under the key 5 computes the high value
`s = 8` and returns its negation 5, which is low. -/
theorem sign_produces_low_s_witness :
    e13.sign 5 bw6 = some { R_x := 2, s := 5 } ∧
    isHigh ({ R_x := 2, s := 5 } : Signature 13).s = false :=
  ⟨by decide, sign_produces_low_s e13 5 bw6 { R_x := 2, s := 5 } (by decide)⟩

/-- C5 counterexample: the claim says the zero collisions during signing are
handled by retrying with a perturbed nonce derivation, so that `sign` always
produces a signature; but on the engine whose nonce derivation yields 1, the
key 12 and the hash 1 give `s = r⁻¹(m + Rx·x) = 1 + 12 = 0`, and `sign`
aborts with no output — no retry is performed. -/
theorem sign_retry_counterexample :
    eAbort.sign 12 bw1 = none ∧
    eAbort.signRx 12 bw1 ≠ 0 ∧ eAbort.signS 12 bw1 = 0 := by decide

/-- C5 amended: `sign` guards the zero collisions by a checked abort —
it returns no signature exactly when `R_x` or `s` reduces to zero, performs
no internal retry, and never returns a partial signature: any produced
signature has nonzero `R_x` and nonzero `s`. -/
theorem sign_abort_characterization {q : ℕ} [NeZero q]
    (e : ECDSA (NonceGen q)) (x : ZMod q) (h : Bytes32) :
    (e.sign x h = none ↔ e.signRx x h = 0 ∨ e.signS x h = 0) ∧
    (∀ sig, e.sign x h = some sig → sig.R_x ≠ 0 ∧ sig.s ≠ 0) := by
  refine ⟨sign_eq_none_iff e x h, ?_⟩
  intro sig hsig
  obtain ⟨h1, h2, hsigeq⟩ := (sign_eq_some_iff e x h sig).mp hsig
  subst hsigeq
  exact ⟨h1, condNegHigh_ne_zero h2⟩

/-- C5 amended witness: on a successful signing (key 1, hash 0) the produced
signature has nonzero components. -/
theorem sign_abort_characterization_witness :
    ({ R_x := 1, s := 1 } : Signature 13).R_x ≠ 0 ∧
    ({ R_x := 1, s := 1 } : Signature 13).s ≠ 0 :=
  (sign_abort_characterization eAbort 1 bw0).2 { R_x := 1, s := 1 } (by decide)

/-- C7: signing is deterministic — two engine instances holding the same
nonce generator (whatever their policy flags) derive the identical nonce and
return the identical signature for the same key and message hash. -/
theorem sign_deterministic {q : ℕ} [NeZero q] (e1 e2 : ECDSA (NonceGen q))
    (hng : e1.nonce_gen = e2.nonce_gen) (x : ZMod q) (h : Bytes32) :
    e1.nonce x h = e2.nonce x h ∧ e1.sign x h = e2.sign x h := by
  have hn : e1.nonce x h = e2.nonce x h := by
    unfold ECDSA.nonce
    rw [hng]
  have hrx : e1.signRx x h = e2.signRx x h := by
    unfold ECDSA.signRx
    rw [hn]
  have hs : e1.signS x h = e2.signS x h := by
    unfold ECDSA.signS
    rw [hn, hrx]
  refine ⟨hn, ?_⟩
  unfold ECDSA.sign
  rw [hrx, hs]

/-- C7 witness: the engine and its low-s-enforcing copy share the nonce
generator and produce the identical nonce and signature. -/
theorem sign_deterministic_witness :
    e13.nonce 3 bw5 = (e13.enforceLowS).nonce 3 bw5 ∧
    e13.sign 3 bw5 = (e13.enforceLowS).sign 3 bw5 :=
  sign_deterministic e13 (e13.enforceLowS) rfl 3 bw5

/-- C4: a low-s-enforcing verifier rejects every high-`s` signature outright
(for every key and hash, i.e. independently of the group computation); a
non-enforcing verifier gives the same verdict on `(Rx, s)` and `(Rx, -s)`;
and negating a low nonzero `s` to its high form makes the enforcing verifier
reject. -/
theorem verify_low_s_malleability {q : ℕ} [NeZero q] [Fact (Nat.Prime q)]
    (hq : 2 < q) {NG1 NG2 : Type} (e1 : ECDSA NG1) (e2 : ECDSA NG2)
    (h1 : e1.enforce_low_s = true) (h2 : e2.enforce_low_s = false)
    (vk : ZMod q) (h : Bytes32) (sig : Signature q) (rx s : ZMod q) :
    (isHigh sig.s = true → e1.verify vk h sig = false) ∧
    (e2.verify vk h { R_x := rx, s := -s } = e2.verify vk h { R_x := rx, s := s }) ∧
    (s ≠ 0 → isHigh s = false → e1.verify vk h { R_x := rx, s := -s } = false) := by
  refine ⟨?_, verify_neg_s hq e2 h2 vk h rx s, ?_⟩
  · intro hh
    unfold ECDSA.verify
    rw [hh, h1]
    simp
  · intro hs hlow
    have hodd : Odd q := (Fact.out (p := Nat.Prime q)).odd_of_ne_two (by omega)
    have hhigh := isHigh_neg_of_low hodd hs hlow
    unfold ECDSA.verify
    rw [show ({ R_x := rx, s := -s } : Signature q).s = -s from rfl, hhigh, h1]
    simp

/-- C4 witness: on the order-13 group, the enforcing verifier rejects the
valid high-`s` signature (1, 7); the non-enforcing verifier treats (1, -3)
and (1, 3) identically; and the enforcing verifier rejects (1, -3), the high
negation of the low 3. -/
theorem verify_low_s_malleability_witness :
    eVerEnf.verify (1 : ZMod 13) bw6 { R_x := 1, s := 7 } = false ∧
    eVer.verify (1 : ZMod 13) bw6 { R_x := 1, s := -3 } =
      eVer.verify (1 : ZMod 13) bw6 { R_x := 1, s := 3 } ∧
    eVerEnf.verify (1 : ZMod 13) bw6 { R_x := 1, s := -3 } = false :=
  have hth := verify_low_s_malleability (q := 13) (by decide) eVerEnf eVer rfl rfl
    (1 : ZMod 13) bw6 { R_x := 1, s := 7 } 1 3
  ⟨hth.1 (by decide), hth.2.1, hth.2.2 (by decide) (by decide)⟩

/-- C6 counterexample: the claim describes `verify` as returning true
whenever the implied point is non-identity and its x-coordinate matches
`R_x`, for every instance; but a low-s-enforcing instance returns false on
the high-`s` signature (1, 7) of hash 6 under key point 1·G although its
implied point is nonzero and its x-coordinate matches. -/
theorem verify_total_predicate_counterexample :
    eVerEnf.verify (1 : ZMod 13) bw6 { R_x := 1, s := 7 } = false ∧
    impliedPoint (1 : ZMod 13) (fromBytesModOrder 13 bw6) 1 7 ≠ 0 ∧
    xonlyScalar (impliedPoint (1 : ZMod 13) (fromBytesModOrder 13 bw6) 1 7) = 1 := by
  decide

/-- C6 amended: `verify` is a total boolean predicate; it returns false
whenever the implied point is the identity, and — provided the instance does
not enforce the low-s policy — it returns true exactly when the implied
point is non-identity and its x-coordinate, reduced modulo the group order,
equals `R_x`. -/
theorem verify_total_predicate {q : ℕ} [NeZero q] {NG : Type} (e : ECDSA NG)
    (vk : ZMod q) (h : Bytes32) (sig : Signature q) :
    (impliedPoint vk (fromBytesModOrder q h) sig.R_x sig.s = 0 →
      e.verify vk h sig = false) ∧
    (e.enforce_low_s = false →
      (e.verify vk h sig = true ↔
        impliedPoint vk (fromBytesModOrder q h) sig.R_x sig.s ≠ 0 ∧
        xonlyScalar (impliedPoint vk (fromBytesModOrder q h) sig.R_x sig.s) =
          sig.R_x)) := by
  constructor
  · intro h0
    unfold ECDSA.verify
    simp [h0]
  · intro henf
    unfold ECDSA.verify
    rw [henf]
    by_cases h0 : impliedPoint vk (fromBytesModOrder q h) sig.R_x sig.s = 0
    · simp [h0]
    · simp [h0, x_eq_scalar]

/-- C6 amended witness: the non-enforcing verifier accepts (1, 7) on hash 6
under key point 1·G, as its implied point is nonzero with matching
x-coordinate. -/
theorem verify_total_predicate_witness :
    eVer.verify (1 : ZMod 13) bw6 { R_x := 1, s := 7 } = true :=
  ((verify_total_predicate eVer (1 : ZMod 13) bw6 { R_x := 1, s := 7 }).2
    rfl).mpr ⟨by decide, by decide⟩

/-- C8: `new` stores the given nonce generator with the protocol tag "ECDSA"
added — not the generator itself — and therefore, for every generator whose
derivation distinguishes an appended tag, the nonce derived by the
constructed instance differs from the nonce derived by the untagged
generator on the same inputs. -/
theorem new_adds_protocol_tag {q : ℕ} (ng : NonceGen q) (x : ZMod q)
    (h : Bytes32) :
    (ECDSA.new ng).nonce_gen = ng.addProtocolTag "ECDSA" ∧
    (ECDSA.new ng).nonce_gen ≠ ng ∧
    ((∀ ts t sk mh, ng.base (ts ++ [t]) sk mh ≠ ng.base ts sk mh) →
      (ECDSA.new ng).nonce x h ≠ ng.derive x h) := by
  refine ⟨rfl, ?_, ?_⟩
  · intro heq
    have htags := congrArg NonceGen.tags heq
    simp [ECDSA.new, NonceGen.addProtocolTag] at htags
  · intro hsens
    unfold ECDSA.nonce NonceGen.derive ECDSA.new NonceGen.addProtocolTag
    exact hsens ng.tags "ECDSA" x h

/-- C8 witness: for the tag-counting generator, the constructed instance
stores the tagged generator and derives a different nonce than the untagged
generator. -/
theorem new_adds_protocol_tag_witness :
    (ECDSA.new ngTagSensitive).nonce_gen = ngTagSensitive.addProtocolTag "ECDSA" ∧
    (ECDSA.new ngTagSensitive).nonce 0 bw0 ≠ ngTagSensitive.derive 0 bw0 := by
  have hth := new_adds_protocol_tag ngTagSensitive 0 bw0
  refine ⟨hth.1, hth.2.2 ?_⟩
  intro ts t sk mh heq
  simp only [ngTagSensitive] at heq
  rw [List.length_append, List.length_singleton, Nat.cast_add, Nat.cast_one] at heq
  exact absurd (add_right_eq_self.mp heq) (by decide)

/-- C9: `verify_only` and `new` both build instances with the low-s policy
disabled, and `enforceLowS` flips only that flag, leaving the nonce
generator untouched. -/
theorem construction_policy_defaults {NG : Type} (e : ECDSA NG) {q : ℕ}
    (ng : NonceGen q) :
    ECDSA.verify_only.enforce_low_s = false ∧
    (ECDSA.new ng).enforce_low_s = false ∧
    e.enforceLowS.enforce_low_s = true ∧
    e.enforceLowS.nonce_gen = e.nonce_gen :=
  ⟨rfl, rfl, rfl, rfl⟩

/-- C10: `verify` depends on the message hash only through its value modulo
the group order — two 32-byte hashes whose big-endian values are congruent
modulo `q` give the same verdict for every key and signature. -/
theorem verify_depends_on_hash_mod_order {q : ℕ} [NeZero q] {NG : Type}
    (e : ECDSA NG) (vk : ZMod q) (sig : Signature q) (h1 h2 : Bytes32)
    (hcong : h1.val ≡ h2.val [MOD q]) :
    e.verify vk h1 sig = e.verify vk h2 sig := by
  have hm : fromBytesModOrder q h1 = fromBytesModOrder q h2 := by
    unfold fromBytesModOrder
    exact (ZMod.natCast_eq_natCast_iff _ _ _).mpr hcong
  unfold ECDSA.verify
  rw [hm]

/-- C10 witness: the hashes with values 0 and 13 are congruent modulo 13 and
receive the same verdict. -/
theorem verify_depends_on_hash_mod_order_witness :
    (0 : ℕ) ≡ 13 [MOD 13] ∧
    eVer.verify (1 : ZMod 13) bw0 { R_x := 1, s := 7 } =
      eVer.verify (1 : ZMod 13) bw13 { R_x := 1, s := 7 } :=
  ⟨by decide,
    verify_depends_on_hash_mod_order eVer 1 { R_x := 1, s := 7 } bw0 bw13
      (by decide)⟩

/-- C2: for every valid input (a positive threshold within the field width,
any polynomial, any secret share, and a share index with an in-range
payload), decoding an encoded backup succeeds and returns exactly the
threshold, the polynomial identifier of the polynomial, the secret share and
the share index. -/
theorem backup_roundtrip {q : ℕ} [NeZero q] (t : ℕ) (poly : List (ZMod q))
    (share : ZMod q) (idx : BackupShareIndex q) (ht0 : 0 < t)
    (ht : t < 2 ^ 16) (hidx : indexOk idx = true) :
    (encode_backup t poly share idx).bind (decode_backup q) =
      some (t, polynomial_identifier poly, share, idx) := by
  have hpow : (2 : ℕ) ^ 16 = 65536 := by norm_num
  rw [hpow] at ht
  have hshval : share.val < q := ZMod.val_lt share
  have hcast : ((share.val : ℕ) : ZMod q) = share := ZMod.natCast_rightInverse share
  have hsh := Nat.not_le.mpr hshval
  have ht0' : t ≠ 0 := by omega
  have ht65 : ¬ 65536 ≤ t := by omega
  cases idx with
  | SmallIndex i =>
    have hi : i < 2 ^ 16 := by simpa [indexOk] using hidx
    rw [hpow] at hi
    have hi65 : ¬ 65536 ≤ i := by omega
    simp [encode_backup, decode_backup, backupFields, backupChecksum, indexOk,
      ht0', ht65, hi, hi65, hsh, hcast]
  | Scalar sIdx =>
    have hpv : sIdx.val < q := ZMod.val_lt sIdx
    have hpc : ((sIdx.val : ℕ) : ZMod q) = sIdx := ZMod.natCast_rightInverse sIdx
    have hp := Nat.not_le.mpr hpv
    simp [encode_backup, decode_backup, backupFields, backupChecksum, indexOk,
      ht0', ht65, hp, hsh, hcast, hpc]

/-- C2 witness: the two examples from the spec, over the secp256k1 group
order — threshold 4 with the one-point polynomial `[1·G]`, secret share
0x1234…1234 and small index 7, and threshold 31 with a three-point
polynomial, secret share 0x7373…7373 and the full-scalar index
0x34f7…0d90 — both round-trip exactly, with the decoded identifier equal to
`polynomial_identifier` of the same polynomial. -/
theorem backup_roundtrip_witness :
    (encode_backup (q := secpOrder) 4 [1]
        0x1234123412341234123412341234123412341234123412341234123412341234
        (BackupShareIndex.SmallIndex 7)).bind (decode_backup secpOrder) =
      some (4, polynomial_identifier [(1 : ZMod secpOrder)],
        (0x1234123412341234123412341234123412341234123412341234123412341234 :
          ZMod secpOrder),
        BackupShareIndex.SmallIndex 7) ∧
    (encode_backup (q := secpOrder) 31 [1, 2, 3]
        0x7373737373737373737373737373737373737373737373737373737373737373
        (BackupShareIndex.Scalar
          0x34f7ce653cfa8454b3463726a599ef2925736442d2d06455974d6feae9450d90)).bind
      (decode_backup secpOrder) =
      some (31, polynomial_identifier [(1 : ZMod secpOrder), 2, 3],
        (0x7373737373737373737373737373737373737373737373737373737373737373 :
          ZMod secpOrder),
        BackupShareIndex.Scalar
          (0x34f7ce653cfa8454b3463726a599ef2925736442d2d06455974d6feae9450d90 :
            ZMod secpOrder)) :=
  ⟨backup_roundtrip 4 [1] _ _ (by decide) (by decide) (by decide),
    backup_roundtrip 31 [1, 2, 3] _ _ (by decide) (by decide) (by decide)⟩
